import Mathlib

/-!
Verification of the BOAMP procurement-data pipeline.

The development shallowly embeds the recurring core logic of the repository:
the paginated record fetcher with early-stop heuristic
(`get_all_records_for_date` in `src/main.py` / `src/src/data_fetcher.py`),
the keyword matcher (`filter_by_keywords`), the deduplicator
(`remove_duplicates`), and the document-scanner text analyses
(`search_keywords_and_find_lot`, `check_visite_obligatoire`).

Modelling conventions:
* Python dicts (API records) become structures; a missing `dateparution`
  key is `none` (`record.get` returns `None`).
* The remote listing endpoint is a function `Nat → FPage` from request
  offset to the page returned at that offset; finite mock listings are
  lifted with `pagesOf`, with pages past the end returning an empty
  `results` array (as the real API does).
* The `while` loop of the fetcher is encoded with an explicit fuel
  parameter; the top-level entry point uses fuel 101, which is exactly
  the maximum number of iterations permitted by the `offset > 10000`
  safety cap (offsets 0, 100, ..., 10000), and the fuel-independence and
  request-count theorems below show the fuel never cuts an execution short.
* Python string comparison (`<` on date strings, `sorted`) is
  lexicographic by code point, which coincides with Lean's `String` order.
* Case folding (`str.lower`, `re.IGNORECASE`) is modelled by
  `Char.toLower`, i.e. ASCII case folding; `\w`, `\s`, `[A-Z]`, `\d` are
  modelled by the corresponding ASCII character classes.
-/

namespace Sorabo

/-! ### Generic list helpers (order-preserving dedup, insertion sort) -/

/-- Keep-first deduplication with an explicit `seen` accumulator, the shape of
the membership-checked `append` loops in `search_keywords_and_find_lot`. -/
def dedupFirstAux {α : Type} [DecidableEq α] (seen : List α) : List α → List α
  | [] => []
  | x :: xs => if x ∈ seen then dedupFirstAux seen xs else x :: dedupFirstAux (x :: seen) xs

def dedupFirst {α : Type} [DecidableEq α] (l : List α) : List α :=
  dedupFirstAux [] l

/-- Insertion into a `≤`-sorted list of naturals. -/
def insertNat (a : Nat) : List Nat → List Nat
  | [] => [a]
  | b :: bs => if a ≤ b then a :: b :: bs else b :: insertNat a bs

/-- Insertion sort on naturals (ascending), modelling the ascending group
order of `pandas.groupby`. -/
def sortNat : List Nat → List Nat
  | [] => []
  | a :: as => insertNat a (sortNat as)

/-- Lexicographic code-point comparison of character lists: exactly Python's
string `<` (shorter strict prefixes compare smaller). -/
def strLtL : List Char → List Char → Bool
  | [], [] => false
  | [], _ :: _ => true
  | _ :: _, [] => false
  | a :: as, b :: bs =>
    if a.toNat < b.toNat then true
    else if b.toNat < a.toNat then false
    else strLtL as bs

/-- Python string `<` (code-point lexicographic). -/
def strLt (a b : String) : Bool :=
  strLtL a.data b.data

/-- Python string `<=`, i.e. not `>`. -/
def strLe (a b : String) : Bool :=
  !(strLt b a)

/-- Insertion into a `strLe`-sorted list of strings. -/
def insertStr (s : String) : List String → List String
  | [] => [s]
  | t :: ts => if strLe s t then s :: t :: ts else t :: insertStr s ts

/-- Insertion sort on strings, modelling Python's `sorted` (ascending,
code-point lexicographic). -/
def sortStr : List String → List String
  | [] => []
  | s :: ss => insertStr s (sortStr ss)

/-! ### Record fetcher: `get_all_records_for_date` -/

/-- One raw API record; only the `dateparution` field is inspected by the
fetcher, the remaining payload is opaque. `none` models a missing key. -/
structure FRecord where
  dateparution : Option String
  payload : Nat
deriving DecidableEq, Repr

/-- One page of the listing response: HTTP status and the `results` array. -/
structure FPage where
  status : Nat
  results : List FRecord
deriving DecidableEq, Repr

/-- `record.get('dateparution', '')`: the date string with default `""`. -/
def dateD (r : FRecord) : String :=
  r.dateparution.getD ""

/-- `records[-1].get('dateparution', '')` used by the early-stop check. -/
def lastDateD (rs : List FRecord) : String :=
  match rs.getLast? with
  | some r => dateD r
  | none => ""

/-- `record.get('dateparution') == target_date`. -/
def matchesTarget (target : String) (r : FRecord) : Bool :=
  r.dateparution == some target

/-- The body of the `while len(all_records) < max_records` loop of
`get_all_records_for_date` (`src/main.py` lines 31-84, identically
`src/src/data_fetcher.py` lines 6-52).  Returns the accumulated records
together with the list of offsets actually requested.  `fuel` bounds the
number of remaining iterations; the theorems below show that fuel 101 is
never exhausted thanks to the `offset > 10000` safety cap. -/
def fetchFrom (pages : Nat → FPage) (target : String) (maxRecords : Nat) :
    Nat → Nat → List FRecord → List FRecord × List Nat
  | 0, _, acc => (acc, [])
  | Nat.succ fuel, offset, acc =>
    if acc.length < maxRecords then
      let page := pages offset
      if page.status ≠ 200 then (acc, [offset])
      else if page.results.isEmpty then (acc, [offset])
      else
        let targetRecords := page.results.filter (matchesTarget target)
        let acc2 := acc ++ targetRecords
        if strLt (lastDateD page.results) target then (acc2, [offset])
        else if offset + 100 > 10000 then (acc2, [offset])
        else
          let rest := fetchFrom pages target maxRecords fuel (offset + 100) acc2
          (rest.1, offset :: rest.2)
    else (acc, [])

/-- `get_all_records_for_date(target_date, max_records)`: run the pagination
loop from offset 0 with an empty accumulator. -/
def get_all_records_for_date (pages : Nat → FPage) (target : String)
    (maxRecords : Nat) : List FRecord :=
  (fetchFrom pages target maxRecords 101 0 []).1

/-- The offsets of the page requests issued by a full run. -/
def fetchedOffsets (pages : Nat → FPage) (target : String)
    (maxRecords : Nat) : List Nat :=
  (fetchFrom pages target maxRecords 101 0 []).2

/-- Lift a finite mock listing to the request model: the page at `offset` is
entry `offset / 100` (the page size is 100), and pages past the end are
empty successful responses, as returned by the real endpoint. -/
def pagesOf (L : List FPage) : Nat → FPage :=
  fun offset => L.getD (offset / 100) ⟨200, []⟩

/-- All records of a mock listing, in stream order. -/
def streamOf (L : List FPage) : List FRecord :=
  (L.map FPage.results).flatten

/-- The records of the pages from index `k` on, in stream order. -/
def streamFrom (L : List FPage) (k : Nat) : List FRecord :=
  ((L.drop k).map FPage.results).flatten

/-- A two-page mock listing, sorted descending by date, used by the C1
witness. -/
def demoListing : List FPage :=
  [⟨200, [⟨some "2025-10-29", 0⟩, ⟨some "2025-10-29", 1⟩]⟩,
   ⟨200, [⟨some "2025-10-28", 2⟩]⟩]

/-! ### Deduplicator: `remove_duplicates` (`src/main.py` lines 396-412) -/

/-- One filtered table row as seen by the deduplicator: the identifier
column, the `keyword` column (`none` models a null cell), and the
remaining fields, opaque to the deduplication logic. -/
structure DRow where
  id : Nat
  keyword : Option String
  payload : Nat
deriving DecidableEq, Repr

/-- Python whitespace, as stripped by `str.strip()`. -/
def isPyWs (c : Char) : Bool :=
  c == ' ' || c == '\t' || c == '\n' || c == '\r' || c == Char.ofNat 11 || c == Char.ofNat 12

/-- `str.strip()`: drop leading and trailing whitespace. -/
def pyStrip (s : String) : String :=
  String.mk (((s.data.dropWhile isPyWs).reverse.dropWhile isPyWs).reverse)

/-- The generator
`str(keyword) for keyword in group[keyword_column]
 if pd.notna(keyword) and str(keyword).strip()`:
the group's non-null keyword values whose stripped form is non-empty
(the joined value itself is not stripped). -/
def keywordTokens (group : List DRow) : List String :=
  (group.filterMap DRow.keyword).filter (fun s => !(pyStrip s == ""))

/-- The join of the group's kept keyword values with separator `"; "`. -/
def combinedKeywords (group : List DRow) : String :=
  String.intercalate "; " (keywordTokens group)

/-- The rows sharing identifier `i`, in original order
(`pandas.groupby` keeps within-group order). -/
def groupOf (rows : List DRow) (i : Nat) : List DRow :=
  rows.filter (fun r => r.id == i)

/-- `combine_keywords(group)`: a group of size 1 passes through unchanged;
a larger group yields its first row with the keyword column replaced by the
combined string.  The empty case is unreachable (groups are non-empty). -/
def combineGroup (i : Nat) (g : List DRow) : DRow :=
  match g with
  | [] => ⟨i, none, 0⟩
  | r :: rs =>
    if rs.isEmpty then r
    else { r with keyword := some (combinedKeywords (r :: rs)) }

/-- The distinct identifier values, in ascending order
(`pandas.groupby` sorts group keys by default). -/
def sortedUniqueIds (rows : List DRow) : List Nat :=
  sortNat ((rows.map DRow.id).dedup)

/-- `remove_duplicates(df, id_column, keyword_column)`:
`df.groupby(id_column).apply(combine_keywords).reset_index(drop=True)` —
one output row per distinct identifier, in ascending identifier order. -/
def remove_duplicates (rows : List DRow) : List DRow :=
  (sortedUniqueIds rows).map (fun i => combineGroup i (groupOf rows i))

/-- The claim's description of the merged keyword field: the group's kept
keyword values with duplicates removed in order of first appearance,
semicolon-and-space-joined.  Stated from the spec's words, to be compared
with `combinedKeywords`, which is translated from the code. -/
def claimedCombinedKeywords (group : List DRow) : String :=
  String.intercalate "; " (dedupFirst (keywordTokens group))

/-! ### Keyword matcher: `filter_by_keywords` (`src/main.py` lines 103-117) -/

/-- A table row after `df.astype(str)`: the list of its cell values as
strings, in column order. -/
def TRow : Type := List String

instance : DecidableEq TRow := inferInstanceAs (DecidableEq (List String))

/-- ASCII lowercasing of a character list, modelling `str.lower()`. -/
def lowerL (l : List Char) : List Char :=
  l.map Char.toLower

/-- `needle in hay` on character lists: some tail of `hay` starts with
`needle`. -/
def containsSub (needle hay : List Char) : Bool :=
  hay.tails.any (fun t => needle.isPrefixOf t)

/-- One cell's test: the lowercased cell text contains the lowercased
keyword as a substring (`Series.str.contains` on the lowercased frame,
modelled at its behaviour for patterns without regex metacharacters). -/
def cellMatches (kw : String) (cell : String) : Bool :=
  containsSub (lowerL kw.data) (lowerL cell.data)

/-- `mask.any(axis=1)`: a row matches if any column matches. -/
def rowMatches (kw : String) (row : TRow) : Bool :=
  row.any (cellMatches kw)

/-- `filter_by_keywords(df, keywords)`: for each keyword in order, append a
copy of every matching row tagged with that keyword (the copies carry the
keyword in their added `keyword` column, modelled as the second pair
component). -/
def filter_by_keywords (table : List TRow) (keywords : List String) :
    List (TRow × String) :=
  keywords.foldl
    (fun allMatches kw =>
      let filtered := table.filter (rowMatches kw)
      if filtered.isEmpty then allMatches
      else allMatches ++ filtered.map (fun r => (r, kw)))
    []

/-! ### Document scanner text analyses (`src/main.py` lines 119-211, 296-320)

The five lot regex patterns, `re.findall` with `re.IGNORECASE`, and
`re.finditer(re.escape(keyword), ...)` are modelled by direct scanners over
character lists.  Each pattern's quantifiers range over pairwise disjoint
character classes followed by a mandatory character of another class, so
greedy matching is the unique maximal-run matching implemented here, and
`findall`'s non-overlapping scan is the left-to-right scan that resumes
after the end of each match. -/

/-- Python `\s` (ASCII range). -/
def isWsChar (c : Char) : Bool :=
  c == ' ' || c == '\t' || c == '\n' || c == '\r' || c == Char.ofNat 11 || c == Char.ofNat 12

/-- Python `\w` (ASCII range): letters, digits and underscore. -/
def isWordChar (c : Char) : Bool :=
  c.isAlphanum || c == '_'

/-- The class `[:\-\s]` merged with the surrounding `\s*` of pattern 1. -/
def isSepChar (c : Char) : Bool :=
  isWsChar c || c == ':' || c == '-'

/-- The characters stripped by `.strip(' :-\t')`. -/
def isStripChar (c : Char) : Bool :=
  c == ' ' || c == ':' || c == '-' || c == '\t'

/-- A pattern matcher at one position: given the preceding character (for
`\b`) and the remaining text, return the captured lot text and the matched
length, or `none`. -/
def Matcher : Type :=
  Option Char → List Char → Option (List Char × Nat)

/-- Case-insensitive literal match: if `s` starts with `lit` (given
lowercased), return the rest of `s`. -/
def matchLitCI (lit : List Char) (s : List Char) : Option (List Char) :=
  if lowerL (s.take lit.length) == lit then some (s.drop lit.length) else none

/-- `\b` holds before the match when the previous character is absent or is
not a word character (every pattern using `\b` starts with a word
character, so the other direction of the boundary is automatic). -/
def boundaryOK (prev : Option Char) : Bool :=
  match prev with
  | none => true
  | some c => !(isWordChar c)

/-- Pattern 1, `(lot|LOT)\s*[:\-\s]*\s*(\d+[-\w]*)` with `IGNORECASE`;
`findall` yields group pairs and the code keeps group 2. -/
def matchP1 : Matcher := fun _ s =>
  match matchLitCI ['l', 'o', 't'] s with
  | none => none
  | some s1 =>
    let seps := s1.takeWhile isSepChar
    let s2 := s1.dropWhile isSepChar
    let ds := s2.takeWhile Char.isDigit
    if ds.isEmpty then none
    else
      let s3 := s2.dropWhile Char.isDigit
      let ext := s3.takeWhile (fun c => isWordChar c || c == '-')
      some (ds ++ ext, 3 + seps.length + ds.length + ext.length)

/-- Patterns 2 and 3, `(Lot\s*\d+)` and `(lot\s*\d+)` with `IGNORECASE`
(identical under case folding); the capture is the matched slice itself. -/
def matchP2 : Matcher := fun _ s =>
  match matchLitCI ['l', 'o', 't'] s with
  | none => none
  | some s1 =>
    let ws := s1.takeWhile isWsChar
    let s2 := s1.dropWhile isWsChar
    let ds := s2.takeWhile Char.isDigit
    if ds.isEmpty then none
    else
      let len := 3 + ws.length + ds.length
      some (s.take len, len)

/-- Pattern 4, `\b(\d+)\s*-\s*Lot` with `IGNORECASE`; the capture is the
digit run. -/
def matchP4 : Matcher := fun prev s =>
  if boundaryOK prev then
    let ds := s.takeWhile Char.isDigit
    if ds.isEmpty then none
    else
      let s1 := s.dropWhile Char.isDigit
      let ws1 := s1.takeWhile isWsChar
      let s2 := s1.dropWhile isWsChar
      match s2 with
      | '-' :: s3 =>
        let ws2 := s3.takeWhile isWsChar
        let s4 := s3.dropWhile isWsChar
        match matchLitCI ['l', 'o', 't'] s4 with
        | some _ => some (ds, ds.length + ws1.length + 1 + ws2.length + 3)
        | none => none
      | _ => none
  else none

/-- Pattern 5, `\b(LOT\s*[A-Z]*\d+)` with `IGNORECASE`; the capture is the
matched slice itself. -/
def matchP5 : Matcher := fun prev s =>
  if boundaryOK prev then
    match matchLitCI ['l', 'o', 't'] s with
    | none => none
    | some s1 =>
      let ws := s1.takeWhile isWsChar
      let s2 := s1.dropWhile isWsChar
      let als := s2.takeWhile Char.isAlpha
      let s3 := s2.dropWhile Char.isAlpha
      let ds := s3.takeWhile Char.isDigit
      if ds.isEmpty then none
      else
        let len := 3 + ws.length + als.length + ds.length
        some (s.take len, len)
  else none

/-- The fixed ordered pattern list `lot_patterns`. -/
def lotPatterns : List Matcher :=
  [matchP1, matchP2, matchP2, matchP4, matchP5]

/-- The character preceding position `i`, for `\b` checks. -/
def prevCharAt (hay : List Char) (i : Nat) : Option Char :=
  if i == 0 then none else (hay.drop (i - 1)).head?

/-- `re.findall`: scan left to right, at each position try the matcher;
on a match, emit the capture and resume after the match's end.  `fuel`
dominates the scan length (`hay.length + 1` suffices since each step
advances by at least one). -/
def findallFrom (m : Matcher) (hay : List Char) : Nat → Nat → List (List Char)
  | _, 0 => []
  | i, Nat.succ fuel =>
    if i < hay.length then
      match m (prevCharAt hay i) (hay.drop i) with
      | some (cap, len) => cap :: findallFrom m hay (i + max 1 len) fuel
      | none => findallFrom m hay (i + 1) fuel
    else []

def findallM (m : Matcher) (hay : List Char) : List (List Char) :=
  findallFrom m hay 0 (hay.length + 1)

/-- `re.sub(r'^(lot|LOT)\s*', '', x, flags=IGNORECASE)` followed by
`.strip(' :-\t')`. -/
def cleanupLot (s : List Char) : List Char :=
  let s1 :=
    if lowerL (s.take 3) == ['l', 'o', 't'] then (s.drop 3).dropWhile isWsChar
    else s
  ((s1.dropWhile isStripChar).reverse.dropWhile isStripChar).reverse

/-- All cleaned candidate lot texts of one lookback window, patterns in
order. -/
def candidateLots (w : List Char) : List (List Char) :=
  (lotPatterns.flatMap (fun m => findallM m w)).map cleanupLot

/-- The per-occurrence `unique_lots` list: cleaned candidates, empties
dropped, keep-first deduplicated (the code's two membership-checked passes
collapse to one). -/
def uniqueLots (w : List Char) : List String :=
  (dedupFirst ((candidateLots w).filter (fun l => !l.isEmpty))).map
    (fun cs => String.mk cs)

/-- `re.finditer(re.escape(keyword), text, re.IGNORECASE)`: the start
positions of the non-overlapping case-insensitive occurrences, scanning
left to right on the lowercased text. -/
def findOccFrom (needle hayL : List Char) : Nat → Nat → List Nat
  | _, 0 => []
  | i, Nat.succ fuel =>
    if i < hayL.length then
      if needle.isPrefixOf (hayL.drop i) then
        i :: findOccFrom needle hayL (i + max 1 needle.length) fuel
      else findOccFrom needle hayL (i + 1) fuel
    else []

def findOccurrences (kw : String) (text : List Char) : List Nat :=
  findOccFrom (lowerL kw.data) (lowerL text) 0 (text.length + 1)

/-- `text[max(0, pos - w) : pos]`: the window of at most `w` characters
immediately preceding position `pos`. -/
def windowBefore (text : List Char) (pos w : Nat) : List Char :=
  (text.take pos).drop (pos - w)

/-- `search_keywords_and_find_lot(text, keywords)` (lines 119-183): for
each keyword, for each case-insensitive occurrence, collect the unique
cleaned lot numbers found by the ordered patterns in the 1000-character
lookback window, emitting one `(keyword, lot_number)` result per pair. -/
def search_keywords_and_find_lot (text : List Char) (keywords : List String) :
    List (String × String) :=
  keywords.flatMap (fun kw =>
    (findOccurrences kw text).flatMap (fun pos =>
      (uniqueLots (windowBefore text pos 1000)).map (fun lot => (kw, lot))))

/-- The `lot_numbers` cell written by `extract_pdf_content` (lines
309-315): the set of `lot-<n>` strings over all results, sorted and
comma-joined. -/
def lot_numbers_field (text : List Char) (keywords : List String) : String :=
  String.intercalate ", "
    (sortStr (dedupFirst
      ((search_keywords_and_find_lot text keywords).map
        (fun r => "lot-" ++ r.2))))

/-- `check_visite_obligatoire(text, keywords)` (lines 185-211): `"yes"` as
soon as some keyword occurrence has `visites` or `visite`
(case-insensitively) in its 500-character lookback window, else `"no"`;
the nested early-return loops are the `any` scans. -/
def check_visite_obligatoire (text : List Char) (keywords : List String) :
    String :=
  if keywords.any (fun kw =>
      (findOccurrences kw text).any (fun pos =>
        let w := lowerL (windowBefore text pos 500)
        containsSub ['v', 'i', 's', 'i', 't', 'e', 's'] w ||
          containsSub ['v', 'i', 's', 'i', 't', 'e'] w))
  then "yes" else "no"

/-! ### Concrete listings used by the witnesses -/

/-- An unbounded listing: every page is the same non-empty page, never
triggering the early-stop, empty-page or `max_records` conditions for a
small target date. -/
def constListing : Nat → FPage :=
  fun _ => ⟨200, [⟨some "9999-12-31", 0⟩]⟩

/-- A listing whose first page holds 100 records of the target date. -/
def fullPageListing : Nat → FPage :=
  fun o => if o == 0 then ⟨200, List.replicate 100 ⟨some "d", 0⟩⟩ else ⟨200, []⟩

/-! ### Supporting lemmas: the code-point order -/

theorem strLtL_asymm : ∀ a b : List Char, strLtL a b = true → strLtL b a = false := by
  intro a
  induction a with
  | nil => intro b h; cases b <;> simp [strLtL] at h ⊢
  | cons x xs ih =>
    intro b h
    cases b with
    | nil => simp [strLtL] at h
    | cons y ys =>
      simp only [strLtL] at h ⊢
      by_cases hxy : x.toNat < y.toNat
      · have hyx : ¬ y.toNat < x.toNat := by omega
        simp [hxy, hyx]
      · by_cases hyx : y.toNat < x.toNat
        · simp [hxy, hyx] at h
        · simp [hxy, hyx] at h ⊢
          exact ih ys h

theorem strLtL_comparison :
    ∀ c a b : List Char, strLtL c a = true →
      strLtL c b = true ∨ strLtL b a = true := by
  intro c
  induction c with
  | nil =>
    intro a b h
    cases a with
    | nil => simp [strLtL] at h
    | cons y ys =>
      cases b with
      | nil => right; simp [strLtL]
      | cons w ws => left; simp [strLtL]
  | cons x xs ih =>
    intro a b h
    cases a with
    | nil => simp [strLtL] at h
    | cons y ys =>
      cases b with
      | nil => right; simp [strLtL]
      | cons w ws =>
        simp only [strLtL] at h ⊢
        by_cases hxw : x.toNat < w.toNat
        · left; simp [hxw]
        · by_cases hwx : w.toNat < x.toNat
          · right
            by_cases hxy : x.toNat < y.toNat
            · have : w.toNat < y.toNat := by omega
              simp [this]
            · by_cases hyx : y.toNat < x.toNat
              · simp [hxy, hyx] at h
              · have : w.toNat < y.toNat := by omega
                simp [this]
          · by_cases hxy : x.toNat < y.toNat
            · right
              have hwy : w.toNat < y.toNat := by omega
              simp [hwy]
            · by_cases hyx : y.toNat < x.toNat
              · simp [hxy, hyx] at h
              · simp only [hxy, hyx, if_false] at h
                rcases ih ys ws h with h1 | h1
                · left; simp [hxw, hwx, h1]
                · right
                  have hwy : ¬ w.toNat < y.toNat := by omega
                  have hyw : ¬ y.toNat < w.toNat := by omega
                  simp [hwy, hyw, h1]

theorem strLe_total (a b : String) : strLe a b = true ∨ strLe b a = true := by
  unfold strLe strLt
  by_cases h : strLtL b.data a.data = true
  · right
    simp [strLtL_asymm _ _ h]
  · left
    simp at h
    simp [h]

theorem strLe_trans {a b c : String} (hab : strLe a b = true)
    (hbc : strLe b c = true) : strLe a c = true := by
  unfold strLe strLt at hab hbc ⊢
  simp only [Bool.not_eq_true'] at hab hbc ⊢
  by_cases h : strLtL c.data a.data = true
  · rcases strLtL_comparison c.data a.data b.data h with h1 | h1
    · rw [h1] at hbc; exact absurd hbc (by simp)
    · rw [h1] at hab; exact absurd hab (by simp)
  · simpa using h

/-! ### Supporting lemmas: insertion sorts and keep-first dedup -/

theorem insertNat_perm (a : Nat) : ∀ l : List Nat, List.Perm (insertNat a l) (a :: l) := by
  intro l
  induction l with
  | nil => simp [insertNat]
  | cons b bs ih =>
    simp only [insertNat]
    split
    · exact List.Perm.refl _
    · exact (ih.cons b).trans (List.Perm.swap a b bs)

theorem sortNat_perm : ∀ l : List Nat, List.Perm (sortNat l) l := by
  intro l
  induction l with
  | nil => simp [sortNat]
  | cons a as ih => exact (insertNat_perm a (sortNat as)).trans (ih.cons a)

theorem insertStr_perm (s : String) : ∀ l : List String, List.Perm (insertStr s l) (s :: l) := by
  intro l
  induction l with
  | nil => simp [insertStr]
  | cons t ts ih =>
    simp only [insertStr]
    split
    · exact List.Perm.refl _
    · exact (ih.cons t).trans (List.Perm.swap s t ts)

theorem sortStr_perm : ∀ l : List String, List.Perm (sortStr l) l := by
  intro l
  induction l with
  | nil => simp [sortStr]
  | cons s ss ih => exact (insertStr_perm s (sortStr ss)).trans (ih.cons s)

theorem insertStr_sorted (s : String) :
    ∀ l : List String, l.Pairwise (fun a b => strLe a b = true) →
      (insertStr s l).Pairwise (fun a b => strLe a b = true) := by
  intro l
  induction l with
  | nil => intro _; simp [insertStr]
  | cons t ts ih =>
    intro hl
    rcases List.pairwise_cons.mp hl with ⟨hts, hpw⟩
    simp only [insertStr]
    split
    · rename_i hst
      refine List.pairwise_cons.mpr ⟨?_, hl⟩
      intro u hu
      rcases List.mem_cons.mp hu with rfl | hu
      · exact hst
      · exact strLe_trans hst (hts u hu)
    · rename_i hst
      have hts2 : strLe t s = true := by
        rcases strLe_total s t with h | h
        · exact absurd h hst
        · exact h
      refine List.pairwise_cons.mpr ⟨?_, ih hpw⟩
      intro u hu
      have := (insertStr_perm s ts).mem_iff.mp hu
      rcases List.mem_cons.mp this with rfl | hu2
      · exact hts2
      · exact hts u hu2

theorem sortStr_sorted : ∀ l : List String,
    (sortStr l).Pairwise (fun a b => strLe a b = true) := by
  intro l
  induction l with
  | nil => simp [sortStr]
  | cons s ss ih => exact insertStr_sorted s (sortStr ss) ih

theorem mem_dedupFirstAux {α : Type} [DecidableEq α] :
    ∀ (l : List α) (seen : List α) (x : α),
      x ∈ dedupFirstAux seen l ↔ x ∈ l ∧ x ∉ seen := by
  intro l
  induction l with
  | nil => intro seen x; simp [dedupFirstAux]
  | cons a as ih =>
    intro seen x
    simp only [dedupFirstAux]
    split
    · rename_i ha
      rw [ih]
      constructor
      · rintro ⟨hx, hns⟩
        exact ⟨List.mem_cons_of_mem a hx, hns⟩
      · rintro ⟨hx, hns⟩
        rcases List.mem_cons.mp hx with rfl | hx
        · exact absurd ha hns
        · exact ⟨hx, hns⟩
    · rename_i ha
      constructor
      · intro hx
        rcases List.mem_cons.mp hx with rfl | hx
        · exact ⟨List.mem_cons_self _ _, ha⟩
        · rcases (ih _ x).mp hx with ⟨h1, h2⟩
          refine ⟨List.mem_cons_of_mem a h1, ?_⟩
          intro hc
          exact h2 (List.mem_cons_of_mem a hc)
      · rintro ⟨hx, hns⟩
        rcases List.mem_cons.mp hx with rfl | hx
        · exact List.mem_cons_self _ _
        · by_cases hxa : x = a
          · subst hxa; exact List.mem_cons_self _ _
          · refine List.mem_cons_of_mem _ ((ih _ x).mpr ⟨hx, ?_⟩)
            intro hc
            rcases List.mem_cons.mp hc with h | h
            · exact hxa h
            · exact hns h

theorem nodup_dedupFirstAux {α : Type} [DecidableEq α] :
    ∀ (l : List α) (seen : List α), (dedupFirstAux seen l).Nodup := by
  intro l
  induction l with
  | nil => intro seen; simp [dedupFirstAux]
  | cons a as ih =>
    intro seen
    simp only [dedupFirstAux]
    split
    · exact ih seen
    · refine List.nodup_cons.mpr ⟨?_, ih (a :: seen)⟩
      intro hc
      rcases (mem_dedupFirstAux as (a :: seen) a).mp hc with ⟨_, hns⟩
      exact hns (List.mem_cons_self _ _)

theorem mem_dedupFirst {α : Type} [DecidableEq α] (l : List α) (x : α) :
    x ∈ dedupFirst l ↔ x ∈ l := by
  unfold dedupFirst
  rw [mem_dedupFirstAux]
  simp

theorem nodup_dedupFirst {α : Type} [DecidableEq α] (l : List α) :
    (dedupFirst l).Nodup :=
  nodup_dedupFirstAux l []

/-! ### Supporting lemmas: the pagination loop -/

theorem fetchFrom_offsets_lb (pages : Nat → FPage) (target : String) (m : Nat) :
    ∀ fuel offset acc, ∀ o ∈ (fetchFrom pages target m fuel offset acc).2,
      offset ≤ o := by
  intro fuel
  induction fuel with
  | zero => intro offset acc o ho; simp [fetchFrom] at ho
  | succ f ih =>
    intro offset acc o ho
    simp only [fetchFrom] at ho
    split at ho
    · split at ho
      · simp at ho; omega
      · split at ho
        · simp at ho; omega
        · split at ho
          · simp at ho; omega
          · split at ho
            · simp at ho; omega
            · simp only [List.mem_cons] at ho
              rcases ho with rfl | ho
              · omega
              · have := ih (offset + 100) _ o ho
                omega
    · simp at ho

theorem fetchFrom_no_request_after_stop (pages : Nat → FPage) (target : String)
    (m : Nat) :
    ∀ fuel offset acc o₁ o₂,
      o₁ ∈ (fetchFrom pages target m fuel offset acc).2 →
      o₂ ∈ (fetchFrom pages target m fuel offset acc).2 →
      o₁ < o₂ →
      strLt (lastDateD (pages o₁).results) target = false := by
  intro fuel
  induction fuel with
  | zero => intro offset acc o₁ o₂ h1 h2 hlt; simp [fetchFrom] at h1
  | succ f ih =>
    intro offset acc o₁ o₂ h1 h2 hlt
    by_cases hm : acc.length < m
    swap
    · simp [fetchFrom, hm] at h1
    by_cases hst : (pages offset).status ≠ 200
    · simp [fetchFrom, hm, hst] at h1 h2
      omega
    by_cases hemp : (pages offset).results.isEmpty
    · simp [fetchFrom, hm, hst, hemp] at h1 h2
      omega
    by_cases hstop : strLt (lastDateD (pages offset).results) target = true
    · simp [fetchFrom, hm, hst, hemp, hstop] at h1 h2
      omega
    by_cases hcap : offset + 100 > 10000
    · simp [fetchFrom, hm, hst, hemp, hstop, hcap] at h1 h2
      omega
    · simp only [fetchFrom, if_pos hm, if_neg hst, Bool.not_eq_true] at h1 h2
      rw [if_neg (by simpa using hemp)] at h1 h2
      rw [if_neg (by simpa using hstop)] at h1 h2
      rw [if_neg hcap] at h1 h2
      simp only [List.mem_cons] at h1 h2
      rcases h1 with rfl | h1
      · simpa using hstop
      · rcases h2 with rfl | h2
        · have := fetchFrom_offsets_lb pages target m f (o₂ + 100) _ o₁ h1
          omega
        · exact ih (offset + 100) _ o₁ o₂ h1 h2 hlt

theorem fetchFrom_requests_bound (pages : Nat → FPage) (target : String)
    (m : Nat) :
    ∀ fuel k acc, k ≤ 100 →
      (fetchFrom pages target m fuel (100 * k) acc).2.length ≤ 101 - k ∧
      ∀ o ∈ (fetchFrom pages target m fuel (100 * k) acc).2, o ≤ 10000 := by
  intro fuel
  induction fuel with
  | zero =>
    intro k acc hk
    constructor
    · simp [fetchFrom]
    · intro o ho; simp [fetchFrom] at ho
  | succ f ih =>
    intro k acc hk
    simp only [fetchFrom]
    split
    · split
      · constructor
        · simp; omega
        · intro o ho; simp at ho; omega
      · split
        · constructor
          · simp; omega
          · intro o ho; simp at ho; omega
        · split
          · constructor
            · simp; omega
            · intro o ho; simp at ho; omega
          · split
            · constructor
              · simp; omega
              · intro o ho; simp at ho; omega
            · rename_i hcap
              have hk99 : k ≤ 99 := by omega
              have hcast : 100 * k + 100 = 100 * (k + 1) := by ring
              rw [hcast]
              have hrec := ih (k + 1)
                (acc ++ ((pages (100 * k)).results).filter (matchesTarget target))
                (by omega)
              constructor
              · simp only [List.length_cons]
                omega
              · intro o ho
                simp only [List.mem_cons] at ho
                rcases ho with rfl | ho
                · omega
                · exact hrec.2 o ho
    · constructor
      · simp
      · intro o ho; simp at ho

theorem fetchFrom_result_bound (pages : Nat → FPage) (target : String)
    (m : Nat) (hpage : ∀ o, ((pages o).results).length ≤ 100) :
    ∀ fuel offset acc, acc.length ≤ m + 99 →
      (fetchFrom pages target m fuel offset acc).1.length ≤ m + 99 := by
  intro fuel
  induction fuel with
  | zero => intro offset acc hacc; simpa [fetchFrom] using hacc
  | succ f ih =>
    intro offset acc hacc
    simp only [fetchFrom]
    split
    · rename_i hlt
      have hfil : (((pages offset).results).filter (matchesTarget target)).length
          ≤ 100 := le_trans (List.length_filter_le _ _) (hpage offset)
      split
      · simpa using hacc
      · split
        · simpa using hacc
        · split
          · simp only [List.length_append]
            omega
          · split
            · simp only [List.length_append]
              omega
            · exact ih (offset + 100) _ (by simp only [List.length_append]; omega)
    · simpa using hacc

/-! ### Supporting lemmas: the pagination loop on sorted listings -/

theorem fetchFrom_succ_eq (pages : Nat → FPage) (target : String)
    (m fuel offset : Nat) (acc : List FRecord) :
    fetchFrom pages target m (fuel + 1) offset acc =
      if acc.length < m then
        if (pages offset).status ≠ 200 then (acc, [offset])
        else if (pages offset).results.isEmpty then (acc, [offset])
        else if strLt (lastDateD (pages offset).results) target then
          (acc ++ (pages offset).results.filter (matchesTarget target), [offset])
        else if offset + 100 > 10000 then
          (acc ++ (pages offset).results.filter (matchesTarget target), [offset])
        else
          ((fetchFrom pages target m fuel (offset + 100)
              (acc ++ (pages offset).results.filter (matchesTarget target))).1,
            offset :: (fetchFrom pages target m fuel (offset + 100)
              (acc ++ (pages offset).results.filter (matchesTarget target))).2)
      else (acc, []) := rfl

theorem streamFrom_zero (L : List FPage) : streamFrom L 0 = streamOf L := rfl

theorem streamFrom_past_end (L : List FPage) (k : Nat) (h : L.length ≤ k) :
    streamFrom L k = [] := by
  unfold streamFrom
  rw [List.drop_eq_nil_of_le h]
  rfl

theorem streamFrom_succ (L : List FPage) (k : Nat) (h : k < L.length) :
    streamFrom L k = (L[k]).results ++ streamFrom L (k + 1) := by
  unfold streamFrom
  rw [List.drop_eq_getElem_cons h, List.map_cons, List.flatten_cons]

theorem fetch_loop_exact (L : List FPage) (target : String) (m : Nat)
    (h200 : ∀ p ∈ L, p.status = 200)
    (hne : ∀ p ∈ L, p.results ≠ [])
    (hlen : L.length ≤ 100) :
    ∀ fuel k acc,
      L.length - k < fuel → k ≤ 100 →
      (streamFrom L k).Pairwise (fun a b => strLe (dateD b) (dateD a) = true) →
      acc.length + ((streamFrom L k).filter (matchesTarget target)).length ≤ m →
      (fetchFrom (pagesOf L) target m fuel (100 * k) acc).1
        = acc ++ (streamFrom L k).filter (matchesTarget target) := by
  intro fuel
  induction fuel with
  | zero =>
    intro k acc hfuel
    exact absurd hfuel (by omega)
  | succ f ih =>
    intro k acc hfuel hk hsort hmax
    have hpage : pagesOf L (100 * k) = L.getD k ⟨200, []⟩ := by
      unfold pagesOf
      rw [Nat.mul_div_cancel_left k (by norm_num : 0 < 100)]
    rw [fetchFrom_succ_eq, hpage]
    by_cases hm : acc.length < m
    case neg =>
      have hFnil : (streamFrom L k).filter (matchesTarget target) = [] := by
        apply List.length_eq_zero.mp
        omega
      rw [if_neg hm, hFnil, List.append_nil]
    case pos =>
      rw [if_pos hm]
      by_cases hkL : k < L.length
      case neg =>
        have hgetD : L.getD k ⟨200, []⟩ = ⟨200, []⟩ :=
          List.getD_eq_default _ _ (by omega)
        have hFnil : streamFrom L k = [] := streamFrom_past_end L k (by omega)
        rw [hgetD]
        rw [if_neg (by simp)]
        rw [if_pos (by simp)]
        rw [hFnil]
        simp
      case pos =>
        have hgetD : L.getD k ⟨200, []⟩ = L[k] := List.getD_eq_getElem _ _ hkL
        have hmem : L[k] ∈ L := List.getElem_mem _
        have hstat : (L[k]).status = 200 := h200 _ hmem
        have hres : (L[k]).results ≠ [] := hne _ hmem
        have hsplit : streamFrom L k = (L[k]).results ++ streamFrom L (k + 1) :=
          streamFrom_succ L k hkL
        have hfsplit : (streamFrom L k).filter (matchesTarget target)
            = (L[k]).results.filter (matchesTarget target)
              ++ (streamFrom L (k + 1)).filter (matchesTarget target) := by
          rw [hsplit, List.filter_append]
        rw [hsplit, List.pairwise_append] at hsort
        obtain ⟨hsort1, hsort2, hcross⟩ := hsort
        rw [hgetD]
        rw [if_neg (by simp [hstat])]
        rw [if_neg (by simp [List.isEmpty_iff, hres])]
        by_cases hstop : strLt (lastDateD (L[k]).results) target = true
        case pos =>
          have hFnil : (streamFrom L (k + 1)).filter (matchesTarget target) = [] := by
            rw [List.filter_eq_nil_iff]
            intro b hb hmb
            have hdb : dateD b = target := by
              unfold matchesTarget at hmb
              unfold dateD
              rcases hx : b.dateparution with _ | d
              · rw [hx] at hmb; simp at hmb
              · rw [hx] at hmb
                simp at hmb
                simp [hmb]
            have hlast := List.getLast?_eq_getLast (L[k]).results hres
            have hamem : (L[k]).results.getLast hres ∈ (L[k]).results :=
              List.getLast_mem hres
            have hle := hcross _ hamem b hb
            have hld : lastDateD (L[k]).results = dateD ((L[k]).results.getLast hres) := by
              unfold lastDateD
              rw [hlast]
            rw [hld] at hstop
            rw [hdb] at hle
            unfold strLe at hle
            rw [hstop] at hle
            simp at hle
          rw [if_pos hstop]
          rw [hfsplit, hFnil, List.append_nil]
        case neg =>
          rw [if_neg hstop]
          have hcap : ¬ (100 * k + 100 > 10000) := by omega
          rw [if_neg hcap]
          have hmax2 : (acc ++ (L[k]).results.filter (matchesTarget target)).length
              + ((streamFrom L (k + 1)).filter (matchesTarget target)).length ≤ m := by
            rw [hfsplit] at hmax
            simp only [List.length_append] at hmax ⊢
            omega
          have hrec := ih (k + 1) (acc ++ (L[k]).results.filter (matchesTarget target))
            (by omega) (by omega) hsort2 hmax2
          have hcast : 100 * k + 100 = 100 * (k + 1) := by ring
          rw [hcast, hrec, hfsplit, List.append_assoc]

/-! ### Supporting lemmas: the deduplicator -/

theorem sortedUniqueIds_nodup (rows : List DRow) :
    (sortedUniqueIds rows).Nodup := by
  unfold sortedUniqueIds
  exact ((sortNat_perm _).nodup_iff).mpr (List.nodup_dedup _)

theorem mem_sortedUniqueIds (rows : List DRow) (i : Nat) :
    i ∈ sortedUniqueIds rows ↔ ∃ r ∈ rows, r.id = i := by
  unfold sortedUniqueIds
  rw [(sortNat_perm _).mem_iff, List.mem_dedup, List.mem_map]

theorem combineGroup_id (rows : List DRow) (i : Nat) :
    (combineGroup i (groupOf rows i)).id = i := by
  cases h : groupOf rows i with
  | nil => simp [combineGroup]
  | cons r rs =>
    have hr : r ∈ rows.filter (fun r => r.id == i) := by
      have : r ∈ groupOf rows i := by rw [h]; exact List.mem_cons_self r rs
      simpa [groupOf] using this
    have hid : r.id = i := by simpa using List.of_mem_filter hr
    simp only [combineGroup]
    split <;> simp [hid]

theorem filter_map_combine (f : Nat → DRow) (hid : ∀ j, (f j).id = j) (i : Nat) :
    ∀ ids : List Nat, ids.Nodup → i ∈ ids →
      (ids.map f).filter (fun r => r.id == i) = [f i] := by
  intro ids
  induction ids with
  | nil => intro _ h; simp at h
  | cons j js ih =>
    intro hnd hmem
    rcases List.nodup_cons.mp hnd with ⟨hj, hnd2⟩
    simp only [List.map_cons, List.filter_cons]
    by_cases hji : j = i
    · subst hji
      rw [if_pos (by simp [hid])]
      have hrest : (js.map f).filter (fun r => r.id == j) = [] := by
        rw [List.filter_eq_nil_iff]
        intro a ha
        rcases List.mem_map.mp ha with ⟨b, hb, rfl⟩
        simp only [hid, beq_iff_eq]
        intro hc
        exact hj (hc ▸ hb)
      rw [hrest]
    · rw [if_neg (by simp [hid, hji])]
      exact ih hnd2 (by rcases List.mem_cons.mp hmem with h | h; exact absurd h.symm hji; exact h)

/-! ### Supporting lemmas: the keyword matcher -/

theorem fbk_foldl_eq (table : List TRow) :
    ∀ (ks : List String) (acc : List (TRow × String)),
      ks.foldl
        (fun allMatches kw =>
          let filtered := table.filter (rowMatches kw)
          if filtered.isEmpty then allMatches
          else allMatches ++ filtered.map (fun r => (r, kw))) acc
      = acc ++ ks.flatMap
          (fun kw => (table.filter (rowMatches kw)).map (fun r => (r, kw))) := by
  intro ks
  induction ks with
  | nil => intro acc; simp
  | cons k ks ih =>
    intro acc
    simp only [List.foldl_cons, List.flatMap_cons]
    rw [ih]
    by_cases h : (table.filter (rowMatches k)).isEmpty
    · have hnil : table.filter (rowMatches k) = [] := List.isEmpty_iff.mp h
      simp [hnil]
    · simp only [h, if_false, Bool.false_eq_true, List.append_assoc]

theorem filter_by_keywords_eq_flatMap (table : List TRow) (keywords : List String) :
    filter_by_keywords table keywords
      = keywords.flatMap
          (fun kw => (table.filter (rowMatches kw)).map (fun r => (r, kw))) := by
  unfold filter_by_keywords
  rw [fbk_foldl_eq]
  simp

theorem countP_eq_and {α : Type} [DecidableEq α] (r : α) (q : α → Bool) :
    ∀ l : List α,
      l.countP (fun a => decide (a = r) && q a)
        = if q r then l.countP (fun a => decide (a = r)) else 0 := by
  intro l
  induction l with
  | nil => simp
  | cons a as ih =>
    simp only [List.countP_cons, ih]
    by_cases har : a = r
    · subst har
      by_cases hq : q a
      · simp [hq]
      · simp [hq]
    · have hfalse : (decide (a = r) && q a) = false := by simp [har]
      have hfalse2 : decide (a = r) = false := by simp [har]
      by_cases hq : q r
      · simp [hq, hfalse, hfalse2]
      · simp [hq, hfalse]

theorem length_flatMap_matches (table : List TRow) :
    ∀ ks : List String,
      (ks.flatMap
          (fun kw => (table.filter (rowMatches kw)).map (fun r => (r, kw)))).length
        = (ks.map (fun k => (table.filter (rowMatches k)).length)).sum := by
  intro ks
  induction ks with
  | nil => simp
  | cons k ks ih =>
    simp only [List.flatMap_cons, List.length_append, List.length_map,
      List.map_cons, List.sum_cons, ih]

theorem copies_count_flatMap (table : List TRow) (r : TRow) :
    ∀ ks : List String,
      ((ks.flatMap
          (fun kw => (table.filter (rowMatches kw)).map (fun row => (row, kw)))).countP
          (fun p => decide (p.1 = r)))
        = ks.countP (fun k => rowMatches k r)
            * table.countP (fun row => decide (row = r)) := by
  intro ks
  induction ks with
  | nil => simp
  | cons k ks ih =>
    simp only [List.flatMap_cons, List.countP_append, ih, List.countP_cons]
    have hinner :
        (((table.filter (rowMatches k)).map (fun row => (row, k))).countP
            (fun p => decide (p.1 = r)))
          = if rowMatches k r then table.countP (fun row => decide (row = r))
            else 0 := by
      rw [List.countP_map]
      have hcomp :
          ((fun p : TRow × String => decide (p.1 = r)) ∘ (fun row => (row, k)))
            = fun row => decide (row = r) := rfl
      rw [hcomp, List.countP_filter]
      exact countP_eq_and r (fun row => rowMatches k row) table
    rw [hinner]
    by_cases h : rowMatches k r
    · simp only [h, if_pos, if_true]
      ring
    · simp [h]

/-! ### Claim theorems -/

/-- C6: the deduplicator's output has exactly one row per distinct value of
the identifier column, so its row count equals the number of distinct
identifiers and never exceeds the input row count. -/
theorem remove_duplicates_count (rows : List DRow) :
    (remove_duplicates rows).length = ((rows.map DRow.id).dedup).length ∧
    (remove_duplicates rows).length ≤ rows.length := by
  have hlen : (remove_duplicates rows).length = ((rows.map DRow.id).dedup).length := by
    unfold remove_duplicates sortedUniqueIds
    rw [List.length_map, (sortNat_perm _).length_eq]
  refine ⟨hlen, ?_⟩
  rw [hlen]
  calc ((rows.map DRow.id).dedup).length
      ≤ (rows.map DRow.id).length := (List.dedup_sublist _).length_le
    _ = rows.length := List.length_map _ _

/-- C2, counterexample: the code joins the group's keyword values without
removing duplicate tokens.  On two rows sharing id 1 with keyword `"A"`,
`remove_duplicates` produces keyword `"A; A"`, whereas the claimed
deduplicated, insertion-ordered merge is `"A"`. -/
theorem remove_duplicates_claim_counterexample :
    remove_duplicates [⟨1, some "A", 0⟩, ⟨1, some "A", 1⟩] =
      [⟨1, some "A; A", 0⟩] ∧
    claimedCombinedKeywords (groupOf [⟨1, some "A", 0⟩, ⟨1, some "A", 1⟩] 1) = "A" ∧
    ("A; A" : String) ≠ "A" :=
  ⟨by decide, by decide, by decide⟩

/-- C2, amended: for every group of size greater than 1, the deduplicator's
output holds exactly one row for that identifier, carrying the
first-encountered row's non-keyword fields, and its keyword field is the
semicolon-and-space-join of all the group's non-null, non-empty keyword
values in order of appearance, duplicates retained. -/
theorem remove_duplicates_merges_group_keywords (rows : List DRow) (i : Nat)
    (r0 : DRow) (g : List DRow) (hg : groupOf rows i = r0 :: g) (hne : g ≠ []) :
    (remove_duplicates rows).filter (fun r => r.id == i) =
      [{ r0 with keyword := some (combinedKeywords (r0 :: g)) }] := by
  have hr : r0 ∈ rows.filter (fun r => r.id == i) := by
    have : r0 ∈ groupOf rows i := by rw [hg]; exact List.mem_cons_self _ _
    simpa [groupOf] using this
  have hr1 : r0 ∈ rows := List.mem_of_mem_filter hr
  have hr2 : r0.id = i := by simpa using List.of_mem_filter hr
  have hmem : i ∈ sortedUniqueIds rows :=
    (mem_sortedUniqueIds rows i).mpr ⟨r0, hr1, hr2⟩
  unfold remove_duplicates
  rw [filter_map_combine (fun j => combineGroup j (groupOf rows j))
    (fun j => combineGroup_id rows j) i _ (sortedUniqueIds_nodup rows) hmem]
  rw [hg]
  simp only [combineGroup]
  rw [if_neg (by simp [hne])]

/-- Witness for C2's amended claim: two rows sharing id 1 with keywords
`"A"` and `"B"` merge to one row with keyword `"A; B"`. -/
theorem remove_duplicates_merges_group_keywords_witness :
    groupOf [⟨1, some "A", 0⟩, ⟨1, some "B", 1⟩] 1 =
      (⟨1, some "A", 0⟩ : DRow) :: [⟨1, some "B", 1⟩] ∧
    ([⟨1, some "B", 1⟩] : List DRow) ≠ [] ∧
    (remove_duplicates [⟨1, some "A", 0⟩, ⟨1, some "B", 1⟩]).filter
      (fun r => r.id == 1) =
      [{ (⟨1, some "A", 0⟩ : DRow) with
          keyword := some (combinedKeywords
            ((⟨1, some "A", 0⟩ : DRow) :: [⟨1, some "B", 1⟩])) }] :=
  ⟨by decide, by decide,
    remove_duplicates_merges_group_keywords _ 1 _ _ (by decide) (by decide)⟩

/-- C7: if, during pagination, the page response at the current offset has a
non-success HTTP status or an empty `results` array, the loop issues no
further page request and returns exactly the records accumulated from the
earlier pages (the accumulator), unchanged — a partial result, never an
emptied one. -/
theorem fetch_stops_on_bad_page (pages : Nat → FPage) (target : String)
    (maxRecords fuel offset : Nat) (acc : List FRecord)
    (hacc : acc.length < maxRecords)
    (hbad : (pages offset).status ≠ 200 ∨ (pages offset).results = []) :
    fetchFrom pages target maxRecords (fuel + 1) offset acc = (acc, [offset]) := by
  by_cases hst : (pages offset).status ≠ 200
  · simp [fetchFrom, hacc, hst]
  · rcases hbad with h | h
    · exact absurd h hst
    · simp [fetchFrom, hacc, hst, h]

/-- Witness for C7: a mid-pagination failing page (status 500) returns the
two records accumulated from the first page, not an empty result. -/
theorem fetch_stops_on_bad_page_witness :
    ([⟨some "2025-10-29", 0⟩, ⟨some "2025-10-29", 1⟩] : List FRecord).length < 5000 ∧
    ((fun o => if o == 0 then (⟨200, [⟨some "2025-10-29", 0⟩]⟩ : FPage)
               else ⟨500, []⟩) 100).status ≠ 200 ∧
    fetchFrom
      (fun o => if o == 0 then (⟨200, [⟨some "2025-10-29", 0⟩]⟩ : FPage)
                else ⟨500, []⟩)
      "2025-10-29" 5000 3 100
      [⟨some "2025-10-29", 0⟩, ⟨some "2025-10-29", 1⟩] =
      ([⟨some "2025-10-29", 0⟩, ⟨some "2025-10-29", 1⟩], [100]) :=
  ⟨by decide, by decide,
    fetch_stops_on_bad_page _ "2025-10-29" 5000 2 100 _ (by decide)
      (Or.inl (by decide))⟩

/-- C8: for every response sequence — including an unbounded supply of
non-empty pages triggering no other stop condition — and for every fuel
bound, the pagination loop issues at most 101 page requests, every
requested offset is at most 10000, and the unbounded `constListing` with a
never-matching target attains exactly 101 requests (offsets 0 through
10000), regardless of `max_records`. -/
theorem fetch_at_most_101_requests (pages : Nat → FPage) (target : String)
    (maxRecords fuel : Nat) :
    (fetchFrom pages target maxRecords fuel 0 []).2.length ≤ 101 ∧
    ((fetchFrom pages target maxRecords fuel 0 []).2.all
      (fun o => decide (o ≤ 10000))) = true ∧
    (fetchedOffsets constListing "0000-01-01" 7).length = 101 := by
  have h := fetchFrom_requests_bound pages target maxRecords fuel 0 [] (by omega)
  rw [Nat.mul_zero] at h
  refine ⟨by omega, ?_, by decide⟩
  rw [List.all_eq_true]
  intro o ho
  simpa using h.2 o ho

/-- C9: the `max_records` bound is checked only before fetching a page and a
fetched page's matching records are appended in full, so the result can
exceed `max_records` — `fullPageListing` with `max_records = 1` returns 100
records, an excess of 99 = page size − 1 — and, when every page holds at
most 100 records, the result never exceeds `max_records + 99`; it is never
truncated back to `max_records`. -/
theorem fetch_can_exceed_max_records :
    (∀ (pages : Nat → FPage) (target : String) (maxRecords fuel : Nat),
      (∀ o, ((pages o).results).length ≤ 100) →
      (fetchFrom pages target maxRecords fuel 0 []).1.length ≤ maxRecords + 99) ∧
    (get_all_records_for_date fullPageListing "d" 1).length = 1 + 99 := by
  constructor
  · intro pages target maxRecords fuel hpage
    exact fetchFrom_result_bound pages target maxRecords hpage fuel 0 [] (by simp)
  · decide

/-- Witness for C9: the page-size hypothesis holds for `fullPageListing`,
and the general bound applies to it. -/
theorem fetch_can_exceed_max_records_witness :
    (∀ o, ((fullPageListing o).results).length ≤ 100) ∧
    (fetchFrom fullPageListing "d" 1 101 0 []).1.length ≤ 1 + 99 := by
  have hp : ∀ o, ((fullPageListing o).results).length ≤ 100 := by
    intro o
    unfold fullPageListing
    split <;> simp
  exact ⟨hp, fetch_can_exceed_max_records.1 fullPageListing "d" 1 101 hp⟩

/-- C3: for a non-empty keyword list, the matcher's output is, keyword by
keyword in list order, one tagged copy of every matching row: it equals the
keyword-major flatten, its size is the sum over keywords of the per-keyword
match counts, the number of copies of any row equals (number of keywords
matching it) × (its multiplicity in the table), and every output pair is a
table row matching its keyword tag. -/
theorem filter_by_keywords_fanout (table : List TRow) (keywords : List String)
    (_hne : keywords ≠ []) :
    filter_by_keywords table keywords
      = keywords.flatMap
          (fun kw => (table.filter (rowMatches kw)).map (fun r => (r, kw))) ∧
    (filter_by_keywords table keywords).length
      = (keywords.map (fun k => (table.filter (rowMatches k)).length)).sum ∧
    (∀ r : TRow,
      ((filter_by_keywords table keywords).countP (fun p => decide (p.1 = r)))
        = keywords.countP (fun k => rowMatches k r)
            * table.countP (fun row => decide (row = r))) ∧
    (∀ p ∈ filter_by_keywords table keywords,
      p.2 ∈ keywords ∧ rowMatches p.2 p.1 = true ∧ p.1 ∈ table) := by
  have heq := filter_by_keywords_eq_flatMap table keywords
  refine ⟨heq, ?_, ?_, ?_⟩
  · rw [heq]
    exact length_flatMap_matches table keywords
  · intro r
    rw [heq]
    exact copies_count_flatMap table r keywords
  · intro p hp
    rw [heq] at hp
    rcases List.mem_flatMap.mp hp with ⟨kw, hkw, hin⟩
    rcases List.mem_map.mp hin with ⟨row, hrow, rfl⟩
    exact ⟨hkw, List.of_mem_filter hrow, List.mem_of_mem_filter hrow⟩

/-- Witness for C3, on the spec's scenario: one row containing both
`Serrurerie` and `44316500`, matched against both keywords, yields two
copies. -/
theorem filter_by_keywords_fanout_witness :
    (["Serrurerie", "44316500"] : List String) ≠ [] ∧
    (filter_by_keywords [["services de Serrurerie x44316500y"], ["autre"]]
        ["Serrurerie", "44316500"]).length
      = ((["Serrurerie", "44316500"] : List String).map
          (fun k =>
            (([["services de Serrurerie x44316500y"], ["autre"]] : List TRow).filter
              (rowMatches k)).length)).sum ∧
    ((filter_by_keywords [["services de Serrurerie x44316500y"], ["autre"]]
        ["Serrurerie", "44316500"]).countP
      (fun p => decide (p.1 = (["services de Serrurerie x44316500y"] : TRow))))
      = (["Serrurerie", "44316500"] : List String).countP
          (fun k => rowMatches k ["services de Serrurerie x44316500y"])
        * ([["services de Serrurerie x44316500y"], ["autre"]] : List TRow).countP
            (fun row => decide (row = ["services de Serrurerie x44316500y"])) := by
  have h := filter_by_keywords_fanout
    [["services de Serrurerie x44316500y"], ["autre"]]
    ["Serrurerie", "44316500"] (by decide)
  exact ⟨by decide, h.2.1, h.2.2.1 ["services de Serrurerie x44316500y"]⟩

/-- C5: the mandatory-visit flag is `"yes"` iff some case-insensitive
occurrence of a trigger keyword has `visite` or `visites`
(case-insensitively) in the window of at most 500 characters immediately
preceding it, and the flag is always `"yes"` or `"no"`. -/
theorem check_visite_obligatoire_iff (text : List Char) (keywords : List String) :
    (check_visite_obligatoire text keywords = "yes" ↔
      ∃ kw ∈ keywords, ∃ pos ∈ findOccurrences kw text,
        (containsSub ['v', 'i', 's', 'i', 't', 'e']
            (lowerL (windowBefore text pos 500)) = true ∨
         containsSub ['v', 'i', 's', 'i', 't', 'e', 's']
            (lowerL (windowBefore text pos 500)) = true)) ∧
    (check_visite_obligatoire text keywords = "yes" ∨
     check_visite_obligatoire text keywords = "no") := by
  constructor
  · unfold check_visite_obligatoire
    split
    · rename_i h
      simp only [List.any_eq_true, Bool.or_eq_true] at h
      constructor
      · intro _
        obtain ⟨kw, hkw, pos, hpos, hc⟩ := h
        exact ⟨kw, hkw, pos, hpos, hc.elim Or.inr Or.inl⟩
      · intro _; rfl
    · rename_i h
      constructor
      · intro hc
        exact absurd hc (by decide)
      · intro hex
        exfalso
        apply h
        simp only [List.any_eq_true, Bool.or_eq_true]
        obtain ⟨kw, hkw, pos, hpos, hc⟩ := hex
        exact ⟨kw, hkw, pos, hpos, hc.elim Or.inr Or.inl⟩
  · unfold check_visite_obligatoire
    split
    · left; rfl
    · right; rfl

/-- C4: a pair `(kw, lot)` is reported by the lot extraction exactly when
`kw` is one of the row's keywords and `lot` is among the unique cleaned lot
candidates of the at-most-1000-character window preceding some
case-insensitive occurrence of `kw`; the stored `lot_numbers` value is the
comma-join of the sorted, duplicate-free list of the `lot-<n>` strings of
all results; and the spec's scenario — `Lot 12` inside the lookback window
of an occurrence of `fenêtres` — yields `lot-12`. -/
theorem lot_extraction_spec :
    (∀ (text : List Char) (keywords : List String) (kw lot : String),
      ((kw, lot) ∈ search_keywords_and_find_lot text keywords ↔
        kw ∈ keywords ∧ ∃ pos ∈ findOccurrences kw text,
          lot ∈ uniqueLots (windowBefore text pos 1000))) ∧
    (∀ (text : List Char) (keywords : List String),
      ∃ l : List String,
        lot_numbers_field text keywords = String.intercalate ", " l ∧
        l.Pairwise (fun a b => strLe a b = true) ∧ l.Nodup ∧
        (∀ s : String, s ∈ l ↔
          ∃ r ∈ search_keywords_and_find_lot text keywords,
            s = "lot-" ++ r.2)) ∧
    lot_numbers_field
      "Appel. Lot 12 : menuiserie et fenêtres du batiment".data
      ["fenêtres"] = "lot-12" := by
  refine ⟨?_, ?_, by decide⟩
  · intro text keywords kw lot
    unfold search_keywords_and_find_lot
    simp only [List.mem_flatMap, List.mem_map]
    constructor
    · rintro ⟨kw2, hkw2, pos, hpos, lot2, hlot2, heq⟩
      obtain ⟨h1, h2⟩ := Prod.mk.injEq kw2 lot2 kw lot ▸ heq
      subst h1; subst h2
      exact ⟨hkw2, pos, hpos, hlot2⟩
    · rintro ⟨hkw, pos, hpos, hlot⟩
      exact ⟨kw, hkw, pos, hpos, lot, hlot, rfl⟩
  · intro text keywords
    refine ⟨sortStr (dedupFirst
        ((search_keywords_and_find_lot text keywords).map
          (fun r : String × String => "lot-" ++ r.2))),
      ?_, sortStr_sorted _, ?_, ?_⟩
    · rfl
    · exact ((sortStr_perm _).nodup_iff).mpr (nodup_dedupFirst _)
    · intro s
      rw [(sortStr_perm _).mem_iff, mem_dedupFirst, List.mem_map]
      constructor
      · rintro ⟨r, hr, rfl⟩
        exact ⟨r, hr, rfl⟩
      · rintro ⟨r, hr, rfl⟩
        exact ⟨r, hr, rfl⟩

/-- C1: on a listing sorted descending by date string whose pages are all
successful and non-empty, with at most 100 pages (so the offset cap never
binds) and at most `max_records` matching records, the fetcher returns
exactly the records whose `dateparution` equals the target date; and — for
every response sequence whatsoever — once a requested page's last record
has `dateparution` strictly below the target under string comparison, no
further page request is issued. -/
theorem fetch_returns_exactly_matching_records (L : List FPage)
    (target : String) (maxRecords : Nat)
    (h200 : ∀ p ∈ L, p.status = 200)
    (hne : ∀ p ∈ L, p.results ≠ [])
    (hsort : (streamOf L).Pairwise (fun a b => strLe (dateD b) (dateD a) = true))
    (hlen : L.length ≤ 100)
    (hmax : ((streamOf L).filter (matchesTarget target)).length ≤ maxRecords) :
    get_all_records_for_date (pagesOf L) target maxRecords
      = (streamOf L).filter (matchesTarget target) ∧
    (∀ (pages : Nat → FPage) (fuel offset : Nat) (acc : List FRecord)
        (o₁ o₂ : Nat),
      o₁ ∈ (fetchFrom pages target maxRecords fuel offset acc).2 →
      o₂ ∈ (fetchFrom pages target maxRecords fuel offset acc).2 →
      o₁ < o₂ → strLt (lastDateD (pages o₁).results) target = false) := by
  constructor
  · unfold get_all_records_for_date
    have h := fetch_loop_exact L target maxRecords h200 hne hlen 101 0 []
      (by omega) (by omega)
      (by rw [streamFrom_zero]; exact hsort)
      (by rw [streamFrom_zero]; simpa using hmax)
    rw [Nat.mul_zero] at h
    rw [h, streamFrom_zero, List.nil_append]
  · intro pages fuel offset acc o₁ o₂ h1 h2 hlt
    exact fetchFrom_no_request_after_stop pages target maxRecords fuel offset
      acc o₁ o₂ h1 h2 hlt

/-- Witness for C1: a two-page descending mock listing returns exactly its
two records dated `2025-10-29`. -/
theorem fetch_returns_exactly_matching_records_witness :
    (∀ p ∈ demoListing, p.status = 200) ∧
    (∀ p ∈ demoListing, p.results ≠ []) ∧
    (streamOf demoListing).Pairwise
      (fun a b => strLe (dateD b) (dateD a) = true) ∧
    demoListing.length ≤ 100 ∧
    ((streamOf demoListing).filter (matchesTarget "2025-10-29")).length ≤ 5000 ∧
    get_all_records_for_date (pagesOf demoListing) "2025-10-29" 5000
      = [⟨some "2025-10-29", 0⟩, ⟨some "2025-10-29", 1⟩] := by
  refine ⟨by decide, by decide, by decide, by decide, by decide, ?_⟩
  have h := (fetch_returns_exactly_matching_records demoListing "2025-10-29" 5000
    (by decide) (by decide) (by decide) (by decide) (by decide)).1
  rw [h]
  decide

end Sorabo

section FetchSanity

open Sorabo

example :
    get_all_records_for_date
      (pagesOf [⟨200, [⟨some "2025-10-29", 0⟩, ⟨some "2025-10-28", 1⟩]⟩])
      "2025-10-29" 5000 = [⟨some "2025-10-29", 0⟩] := by decide

example :
    fetchedOffsets
      (pagesOf [⟨200, [⟨some "2025-10-29", 0⟩, ⟨some "2025-10-28", 1⟩]⟩])
      "2025-10-29" 5000 = [0] := by decide

example :
    remove_duplicates [⟨1, some "A", 0⟩, ⟨1, some "B", 1⟩] =
      [⟨1, some "A; B", 0⟩] := by decide

example :
    remove_duplicates [⟨1, some "A", 0⟩, ⟨1, some "A", 1⟩] =
      [⟨1, some "A; A", 0⟩] := by decide

example :
    filter_by_keywords [["services de Serrurerie"], ["x"]] ["Serrurerie"] =
      [(["services de Serrurerie"], "Serrurerie")] := by decide

example :
    uniqueLots "Appel Lot 12 : menuiserie".data = ["12"] := by decide

example :
    lot_numbers_field
      "Appel. Lot 12 : menuiserie et fenêtres du batiment".data
      ["fenêtres"] = "lot-12" := by decide

example :
    check_visite_obligatoire
      "Une visite du site est obligatoire avant remise".data
      ["obligatoires", "obligatoire"] = "yes" := by decide

example :
    check_visite_obligatoire
      "La remise est obligatoire avant mardi".data
      ["obligatoires", "obligatoire"] = "no" := by decide

end FetchSanity
